import Mathlib

/-!
Verification of the comment-generation backend (`main.py`).

The repository has a single source file.  Its only non-trivial logic is the
pure helper `parse_generated_comments`, which turns the raw text reply of an
LLM into a list of comment strings, and the request handler
`generate_comment`, which checks a global client handle, calls the upstream
completion service and converts failures into HTTP-500 responses.

Strings are modelled as `List Char` (Python `str` of the relevant inputs).
Python's `\s` / `str.strip()` whitespace class is modelled by its ASCII part
(space, tab, newline, carriage return, vertical tab, form feed); Python also
accepts some rarer Unicode whitespace characters, which never occur in the
inputs considered here.  Likewise `\d` is modelled by the ASCII digits.
-/

/-- Python whitespace (`\s`, `str.strip`), restricted to the ASCII class. -/
def pySpace (c : Char) : Bool :=
  c == ' ' || c == '\t' || c == '\n' || c == '\r' || c == '\x0b' || c == '\x0c'

/-- One attempted match of the split pattern `\n\d+\.\s*` at the head of the
list: a newline, a maximal non-empty run of digits, a period, then a maximal
(possibly empty) run of whitespace.  Returns the remainder after the match.
Because a digit is never `.`, the regex's greedy `\d+` with backtracking is
equivalent to taking the maximal digit run and then requiring a `.`. -/
def matchLabel : List Char → Option (List Char)
  | c :: d :: cs =>
    if c = '\n' ∧ d.isDigit then
      match (d :: cs).dropWhile Char.isDigit with
      | '.' :: rest => some (rest.dropWhile pySpace)
      | _ => none
    else none
  | _ => none

/-- Scanner for `re.split(r'\n\d+\.\s*', text)`: walks the text left to
right, accumulating the current fragment (reversed) in `cur`; at each
position the pattern is tried, the leftmost match ends the fragment and the
scan resumes after the matched separator.  `fuel` bounds the recursion and
is always instantiated with the length of the scanned text, which suffices
because every step consumes at least one character. -/
def reSplitAux : Nat → List Char → List Char → List (List Char)
  | _, cur, [] => [cur.reverse]
  | 0, cur, rest => [cur.reverse ++ rest]
  | Nat.succ n, cur, c :: cs =>
    match matchLabel (c :: cs) with
    | some r => cur.reverse :: reSplitAux n [] r
    | none => reSplitAux n (c :: cur) cs

/-- `re.split(r'\n\d+\.\s*', text_response)` from line 61 of `main.py`. -/
def reSplit (t : List Char) : List (List Char) :=
  reSplitAux t.length [] t

/-- Python `str.strip()`: remove leading and trailing whitespace. -/
def pyStrip (l : List Char) : List Char :=
  (((l.dropWhile pySpace).reverse).dropWhile pySpace).reverse

/-- Lines 69-70 of `main.py`: `if c.startswith('1. '): c = c[3:]`. -/
def stripNum1 (c : List Char) : List Char :=
  if c.take 3 = ['1', '.', ' '] then c.drop 3 else c

/-- Lines 72-73 of `main.py`:
`if len(c) > 2 and c.startswith('"') and c.endswith('"'): c = c[1:-1]`. -/
def stripQuotes (c : List Char) : List Char :=
  if 2 < c.length ∧ c.head? = some '"' ∧ c.getLast? = some '"' then
    (c.drop 1).dropLast
  else c

/-- The per-fragment cleaning of the loop body, lines 67-73 of `main.py`:
strip whitespace, then drop a leading `"1. "` marker, then unwrap quotes. -/
def cleanOne (comment : List Char) : List Char :=
  stripQuotes (stripNum1 (pyStrip comment))

/-- The primary parsing strategy, lines 61-76 of `main.py`: regex split,
clean each fragment, keep only the non-empty results (in order). -/
def primaryClean (t : List Char) : List (List Char) :=
  ((reSplit t).map cleanOne).filter (fun c => !c.isEmpty)

/-- Python `text.split('\n')`: a newline starts a fresh (initially empty)
line; any other character is prepended to the first line of the split of the
rest.  (`splitNl` never returns `[]`, so `headI`/`tail` lose nothing.) -/
def splitNl : List Char → List (List Char)
  | [] => [[]]
  | c :: cs =>
    if c = '\n' then [] :: splitNl cs
    else (c :: (splitNl cs).headI) :: (splitNl cs).tail

/-- The fallback strategy, line 80 of `main.py`:
`[c.strip() for c in text_response.split('\n') if c.strip()]`. -/
def nonWsLines (t : List Char) : List (List Char) :=
  ((splitNl t).map pyStrip).filter (fun c => !c.isEmpty)

/-- The fixed apology string of line 82 of `main.py`. -/
def apologyMsg : List Char :=
  "Sorry, I couldn\x27t generate a comment for that.".data

/-- `parse_generated_comments` (lines 54-82 of `main.py`): primary split and
clean; if that yields nothing and the input is non-empty, fall back to
line-splitting; if the result is still empty, return the apology string. -/
def parse_generated_comments (text_response : List Char) : List (List Char) :=
  let cleaned_comments := primaryClean text_response
  let cleaned2 :=
    if cleaned_comments.isEmpty && !text_response.isEmpty then
      nonWsLines text_response
    else cleaned_comments
  if cleaned2.isEmpty then [apologyMsg] else cleaned2

/-- The occurrence count used by the spec's testable property as literally
written: positions of `t` at which the pattern "newline, digits, period,
space" (with a mandatory space) matches. -/
def labelSpAt : List Char → Bool
  | c :: d :: cs =>
    decide (c = '\n') && d.isDigit &&
      (match (d :: cs).dropWhile Char.isDigit with
       | '.' :: ' ' :: _ => true
       | _ => false)
  | _ => false

/-- Number of occurrences in `t` of the spec's literal pattern `\n<digits>. `. -/
def countLabelSp (t : List Char) : Nat :=
  t.tails.countP labelSpAt

/-- Number of positions of `t` at which the code's actual split pattern
`\n\d+\.\s*` matches. -/
def countLabel (t : List Char) : Nat :=
  t.tails.countP (fun l => (matchLabel l).isSome)

/-! ## The request handler (`generate_comment`, lines 94-139 of `main.py`)

The handler is modelled shallowly: the module-level `client` (which is
`None` when construction of the Groq client failed) becomes an
`Option Unit`; the upstream call
`client.chat.completions.create(...).choices[0].message.content` becomes a
function `create` from the request keyword to either an error text (a raised
exception rendered as a string) or the raw reply text.  Raising
`HTTPException(status_code=..., detail=...)` becomes returning
`Except.error`. -/

structure CommentRequest where
  keyword : List Char
deriving DecidableEq

structure CommentResponse where
  keyword : List Char
  generated_comments : List (List Char)
deriving DecidableEq

structure HTTPException where
  status_code : Nat
  detail : List Char
deriving DecidableEq

/-- The `POST /generate_comment` handler: reject with a 500 if the client
was never initialized; otherwise invoke the upstream completion call, parse
its reply, and convert any upstream failure into a 500 whose detail appends
the underlying error text to `"Error generating comment: "`. -/
def generate_comment (client : Option Unit)
    (create : List Char → Except (List Char) (List Char))
    (request : CommentRequest) : Except HTTPException CommentResponse :=
  match client with
  | none =>
    Except.error ⟨500, "Groq client is not initialized. Check GROQ_API_KEY.".data⟩
  | some _ =>
    match create request.keyword with
    | Except.error e =>
      Except.error ⟨500, "Error generating comment: ".data ++ e⟩
    | Except.ok raw =>
      Except.ok ⟨request.keyword, parse_generated_comments raw⟩

/-! ## Basic lemmas about the split scanner -/

theorem matchLabel_nil : matchLabel [] = none := rfl

theorem matchLabel_single (c : Char) : matchLabel [c] = none := rfl

theorem matchLabel_cons_of_ne (c : Char) (cs : List Char) (h : c ≠ '\n') :
    matchLabel (c :: cs) = none := by
  cases cs with
  | nil => rfl
  | cons d cs' =>
    simp only [matchLabel]
    rw [if_neg]
    rintro ⟨hc, -⟩
    exact h hc

/-- Successful matches of the split pattern decompose the scanned text as
newline, non-empty digit run, period, remainder; the returned rest drops the
leading whitespace of the remainder. -/
theorem matchLabel_spec {l r : List Char} (h : matchLabel l = some r) :
    ∃ ds rest, l = '\n' :: (ds ++ '.' :: rest) ∧ ds ≠ [] ∧
      (∀ x ∈ ds, x.isDigit) ∧ r = rest.dropWhile pySpace := by
  match l with
  | [] => exact absurd h (by simp [matchLabel_nil])
  | [c] => exact absurd h (by simp [matchLabel_single])
  | c :: d :: cs =>
    by_cases hc : c = '\n' ∧ d.isDigit
    · simp only [matchLabel, if_pos hc] at h
      rcases heq : (d :: cs).dropWhile Char.isDigit with _ | ⟨p, rest⟩
      · rw [heq] at h; exact absurd h (by simp)
      · rw [heq] at h
        by_cases hp : p = '.'
        · subst hp
          simp only [Option.some.injEq] at h
          refine ⟨(d :: cs).takeWhile Char.isDigit, rest, ?_, ?_, ?_, h.symm⟩
          · rw [hc.1]
            have := List.takeWhile_append_dropWhile (p := Char.isDigit) (l := d :: cs)
            rw [heq] at this
            simp [this]
          · rw [List.takeWhile_cons_of_pos hc.2]; simp
          · intro x hx; exact List.mem_takeWhile_imp hx
        · exact absurd h (by cases p; simp_all)
    · rw [matchLabel, if_neg hc] at h
      exact absurd h (by simp)

/-- A successful match consumes at least three characters. -/
theorem matchLabel_length {l r : List Char} (h : matchLabel l = some r) :
    r.length + 3 ≤ l.length := by
  obtain ⟨ds, rest, hl, hne, -, hr⟩ := matchLabel_spec h
  have h1 : r.length ≤ rest.length := by
    rw [hr]; exact (List.dropWhile_sublist pySpace).length_le
  have h2 : 1 ≤ ds.length := by
    cases ds with
    | nil => exact absurd rfl hne
    | cons x xs => simp
  subst hl; simp; omega

/-- The rest returned by a match is a suffix of the tail of the scanned
text. -/
theorem matchLabel_suffix {c : Char} {cs r : List Char}
    (h : matchLabel (c :: cs) = some r) : r <:+ cs := by
  obtain ⟨ds, rest, hl, -, -, hr⟩ := matchLabel_spec h
  have hcs : cs = ds ++ '.' :: rest := by
    have := hl
    simp only [List.cons.injEq] at this
    exact this.2
  rw [hcs, hr]
  calc rest.dropWhile pySpace <:+ rest := List.dropWhile_suffix pySpace
    _ <:+ '.' :: rest := ⟨['.'], rfl⟩
    _ <:+ ds ++ '.' :: rest := List.suffix_append ds _

theorem reSplitAux_nil (f : Nat) (cur : List Char) :
    reSplitAux f cur [] = [cur.reverse] := by
  cases f <;> rfl

theorem reSplitAux_cons_some {c : Char} {cs r : List Char} (n : Nat)
    (cur : List Char) (h : matchLabel (c :: cs) = some r) :
    reSplitAux (n + 1) cur (c :: cs) = cur.reverse :: reSplitAux n [] r := by
  simp [reSplitAux, h]

theorem reSplitAux_cons_none {c : Char} {cs : List Char} (n : Nat)
    (cur : List Char) (h : matchLabel (c :: cs) = none) :
    reSplitAux (n + 1) cur (c :: cs) = reSplitAux n (c :: cur) cs := by
  simp [reSplitAux, h]

/-- Suffix monotonicity of `tails`. -/
theorem tails_suffix_of_suffix {α : Type} {r l : List α} (h : r <:+ l) :
    r.tails <:+ l.tails := by
  induction l with
  | nil => rw [List.suffix_nil] at h; subst h; exact List.suffix_rfl
  | cons a l ih =>
    rcases List.suffix_cons_iff.mp h with h1 | h2
    · subst h1; exact List.suffix_rfl
    · calc r.tails <:+ l.tails := ih h2
        _ <:+ (a :: l).tails := by
          rw [List.tails_cons]; exact ⟨[a :: l], rfl⟩

/-- The match-position count is monotone under suffixes. -/
theorem countLabel_suffix_le {r l : List Char} (h : r <:+ l) :
    countLabel r ≤ countLabel l :=
  ((tails_suffix_of_suffix h).sublist).countP_le _

/-- The scanner emits at most one more fragment than there are positions at
which the split pattern matches. -/
theorem reSplitAux_length_le :
    ∀ (f : Nat) (rest cur : List Char), rest.length ≤ f →
      (reSplitAux f cur rest).length ≤ countLabel rest + 1 := by
  intro f
  induction f with
  | zero =>
    intro rest cur hle
    have : rest = [] := List.eq_nil_of_length_eq_zero (Nat.le_zero.mp hle)
    subst this
    simp [reSplitAux_nil, countLabel]
  | succ n ih =>
    intro rest cur hle
    cases rest with
    | nil => simp [reSplitAux_nil, countLabel]
    | cons c cs =>
      rcases hm : matchLabel (c :: cs) with _ | r
      · rw [reSplitAux_cons_none n cur hm]
        have h1 : cs.length ≤ n := by
          simpa using Nat.lt_succ_iff.mp (Nat.lt_of_lt_of_le (by simp) hle)
        calc (reSplitAux n (c :: cur) cs).length ≤ countLabel cs + 1 := ih cs _ h1
          _ ≤ countLabel (c :: cs) + 1 := by
            have : countLabel cs ≤ countLabel (c :: cs) := by
              unfold countLabel
              rw [List.tails_cons, List.countP_cons]
              omega
            omega
      · rw [reSplitAux_cons_some n cur hm]
        have hr : r.length ≤ n := by
          have := matchLabel_length hm
          simp at this hle
          omega
        have hsuf : countLabel r ≤ countLabel cs :=
          countLabel_suffix_le (matchLabel_suffix hm)
        have hcount : countLabel (c :: cs) = countLabel cs + 1 := by
          unfold countLabel
          rw [List.tails_cons, List.countP_cons_of_pos]
          simp [hm]
        calc (cur.reverse :: reSplitAux n [] r).length
            = (reSplitAux n [] r).length + 1 := by simp
          _ ≤ (countLabel r + 1) + 1 := by have := ih r [] hr; omega
          _ ≤ countLabel (c :: cs) + 1 := by omega

/-- The primary split produces at most `countLabel t + 1` fragments. -/
theorem reSplit_length_le (t : List Char) :
    (reSplit t).length ≤ countLabel t + 1 :=
  reSplitAux_length_le t.length t [] (Nat.le_refl _)

/-! ## Lemmas about stripping and cleaning -/

theorem head?_dropWhile {p : Char → Bool} {x : List Char} {c : Char}
    (h : (x.dropWhile p).head? = some c) : p c = false := by
  induction x with
  | nil => simp at h
  | cons a x ih =>
    by_cases hp : p a
    · rw [List.dropWhile_cons_of_pos hp] at h; exact ih h
    · rw [List.dropWhile_cons_of_neg hp] at h
      simp only [List.head?_cons, Option.some.injEq] at h
      subst h
      exact Bool.eq_false_iff.mpr hp

theorem pyStrip_getLast? {l : List Char} {c : Char}
    (h : (pyStrip l).getLast? = some c) : pySpace c = false := by
  unfold pyStrip at h
  rw [List.getLast?_reverse] at h
  exact head?_dropWhile h

theorem pyStrip_eq_nil_iff {l : List Char} :
    pyStrip l = [] ↔ ∀ c ∈ l, pySpace c = true := by
  unfold pyStrip
  rw [List.reverse_eq_nil_iff, List.dropWhile_eq_nil_iff]
  constructor
  · intro h c hc
    rw [← List.takeWhile_append_dropWhile (p := pySpace) (l := l),
      List.mem_append] at hc
    rcases hc with hc | hc
    · exact List.mem_takeWhile_imp hc
    · exact h c (by simpa using hc)
  · intro h c hc
    rw [List.mem_reverse] at hc
    exact h c ((List.dropWhile_sublist pySpace).subset hc)

theorem stripQuotes_ne_nil {b : List Char} (h : b ≠ []) : stripQuotes b ≠ [] := by
  unfold stripQuotes
  split
  · rename_i hcond
    intro hnil
    have := congrArg List.length hnil
    simp at this
    omega
  · exact h

theorem cleanOne_ne_nil {f : List Char} (h : pyStrip f ≠ []) : cleanOne f ≠ [] := by
  unfold cleanOne
  apply stripQuotes_ne_nil
  unfold stripNum1
  split
  · rename_i htake
    intro hdrop
    have hs : pyStrip f = ['1', '.', ' '] := by
      have := List.take_append_drop 3 (pyStrip f)
      rw [htake, hdrop] at this
      simpa using this.symm
    have hlast : (pyStrip f).getLast? = some ' ' := by rw [hs]; rfl
    have := pyStrip_getLast? hlast
    simp [pySpace] at this
  · exact h

theorem cleanOne_eq_nil_all_ws {f : List Char} (h : cleanOne f = []) :
    ∀ c ∈ f, pySpace c = true := by
  have hps : pyStrip f = [] := by
    by_contra hne
    exact cleanOne_ne_nil hne h
  exact pyStrip_eq_nil_iff.mp hps

/-! ## Lemmas about line splitting and the fallback strategy -/

theorem splitNl_ne_nil (l : List Char) : splitNl l ≠ [] := by
  cases l with
  | nil => simp [splitNl]
  | cons c cs =>
    rw [splitNl]
    split <;> simp

theorem splitNl_append (a b : List Char) :
    splitNl (a ++ '\n' :: b) = splitNl a ++ splitNl b := by
  induction a with
  | nil => simp [splitNl]
  | cons c a ih =>
    rcases h : splitNl a with _ | ⟨l, ls⟩
    · exact absurd h (splitNl_ne_nil a)
    · rw [List.cons_append, splitNl, splitNl, ih, h]
      by_cases hc : c = '\n'
      · rw [if_pos hc, if_pos hc]
        simp
      · rw [if_neg hc, if_neg hc]
        simp

theorem splitNl_chars {a : List Char} :
    ∀ l ∈ splitNl a, ∀ c ∈ l, c ∈ a := by
  induction a with
  | nil =>
    intro l hl c hc
    simp [splitNl] at hl
    subst hl
    simp at hc
  | cons x a ih =>
    intro l hl c hc
    rcases h : splitNl a with _ | ⟨l', ls'⟩
    · exact absurd h (splitNl_ne_nil a)
    · rw [splitNl, h] at hl
      have hl'mem : l' ∈ splitNl a := by rw [h]; exact List.mem_cons_self _ _
      by_cases hx : x = '\n'
      · rw [if_pos hx] at hl
        rcases List.mem_cons.mp hl with h1 | h2
        · subst h1; simp at hc
        · have : l ∈ splitNl a := by rw [h]; exact h2
          exact List.mem_cons_of_mem x (ih l this c hc)
      · rw [if_neg hx] at hl
        simp only [List.headI, List.tail] at hl
        rcases List.mem_cons.mp hl with h1 | h2
        · subst h1
          rcases List.mem_cons.mp hc with h1 | h2
          · subst h1; exact List.mem_cons_self _ _
          · exact List.mem_cons_of_mem x (ih l' hl'mem c h2)
        · have : l ∈ splitNl a := by rw [h]; exact List.mem_cons_of_mem _ h2
          exact List.mem_cons_of_mem x (ih l this c hc)

theorem nonWsLines_append (a b : List Char) :
    nonWsLines (a ++ '\n' :: b) = nonWsLines a ++ nonWsLines b := by
  unfold nonWsLines
  rw [splitNl_append, List.map_append, List.filter_append]

theorem nonWsLines_all_ws {w : List Char} (h : ∀ c ∈ w, pySpace c = true) :
    nonWsLines w = [] := by
  unfold nonWsLines
  rw [List.filter_eq_nil_iff]
  intro s hs
  rw [List.mem_map] at hs
  obtain ⟨line, hline, hmap⟩ := hs
  have : pyStrip line = [] :=
    pyStrip_eq_nil_iff.mpr (fun c hc => h c (splitNl_chars line hline c hc))
  rw [← hmap, this]
  simp

theorem splitNl_no_nl {u : List Char} (h : '\n' ∉ u) : splitNl u = [u] := by
  induction u with
  | nil => rfl
  | cons c u ih =>
    have hc : c ≠ '\n' := fun hc => h (hc ▸ List.mem_cons_self _ _)
    have hu : '\n' ∉ u := fun hu => h (List.mem_cons_of_mem _ hu)
    rw [splitNl, ih hu, if_neg hc]
    simp

theorem nonWsLines_no_nl_le_one {u : List Char} (h : '\n' ∉ u) :
    (nonWsLines u).length ≤ 1 := by
  unfold nonWsLines
  rw [splitNl_no_nl h]
  simp [List.filter]
  split <;> simp

theorem nonWsLines_line_ws_le_one {u w : List Char} (hu : '\n' ∉ u)
    (hw : ∀ c ∈ w, pySpace c = true) : (nonWsLines (u ++ w)).length ≤ 1 := by
  by_cases hnl : '\n' ∈ w
  · have hq : w.dropWhile (fun c => c != '\n') ≠ [] := by
      rw [Ne, List.dropWhile_eq_nil_iff]
      intro hall
      have := hall '\n' hnl
      simp at this
    rcases hd : w.dropWhile (fun c => c != '\n') with _ | ⟨c0, rest⟩
    · exact absurd hd hq
    · have hc0 : c0 = '\n' := by
        have := head?_dropWhile (p := fun c => c != '\n') (x := w)
          (c := c0) (by rw [hd]; rfl)
        simpa using this
      subst hc0
      have hsplit : u ++ w = (u ++ w.takeWhile (fun c => c != '\n')) ++ '\n' :: rest := by
        conv_lhs => rw [← List.takeWhile_append_dropWhile
          (p := fun c => c != '\n') (l := w)]
        rw [hd, List.append_assoc]
      rw [hsplit, nonWsLines_append]
      have h1 : nonWsLines rest = [] := by
        apply nonWsLines_all_ws
        intro c hc
        have : c ∈ w := (List.dropWhile_sublist _).subset (by rw [hd]; right; exact hc)
        exact hw c this
      have h2 : '\n' ∉ u ++ w.takeWhile (fun c => c != '\n') := by
        rw [List.mem_append]
        rintro (h | h)
        · exact hu h
        · have := List.mem_takeWhile_imp h
          simp at this
      rw [h1, List.append_nil]
      exact nonWsLines_no_nl_le_one h2
  · have : '\n' ∉ u ++ w := by
      rw [List.mem_append]
      rintro (h | h)
      · exact hu h
      · exact hnl h
    exact nonWsLines_no_nl_le_one this

/-! ## Structure of inputs on which the primary strategy yields nothing

If every cleaned fragment of the primary split is empty, the whole input is
whitespace, or whitespace followed by a single numeric label running to the
end of the input.  The key step uses greediness of the matched `\s*`: the
remainder returned by a match never starts with whitespace, while every
fragment (being all-whitespace) would have to. -/

theorem reSplitAux_all_ws_struct :
    ∀ (f : Nat) (rest cur : List Char), rest.length ≤ f →
      (∀ x ∈ reSplitAux f cur rest, ∀ c ∈ x, pySpace c = true) →
      (∀ c ∈ cur.reverse ++ rest, pySpace c = true) ∨
      ∃ w1 ds w2, cur.reverse ++ rest = w1 ++ '\n' :: (ds ++ '.' :: w2) ∧
        (∀ c ∈ w1, pySpace c = true) ∧ ds ≠ [] ∧
        (∀ x ∈ ds, x.isDigit = true) ∧ (∀ c ∈ w2, pySpace c = true) := by
  intro f
  induction f with
  | zero =>
    intro rest cur hle H
    have : rest = [] := List.eq_nil_of_length_eq_zero (Nat.le_zero.mp hle)
    subst this
    rw [reSplitAux_nil] at H
    left
    simpa using H cur.reverse (List.mem_cons_self _ _)
  | succ n ih =>
    intro rest cur hle H
    cases rest with
    | nil =>
      rw [reSplitAux_nil] at H
      left
      simpa using H cur.reverse (List.mem_cons_self _ _)
    | cons c cs =>
      rcases hm : matchLabel (c :: cs) with _ | r
      · rw [reSplitAux_cons_none n cur hm] at H
        have hlen : cs.length ≤ n := by simp at hle; omega
        have heq : (c :: cur).reverse ++ cs = cur.reverse ++ c :: cs := by simp
        rcases ih cs (c :: cur) hlen H with h | ⟨w1, ds, w2, he, hw⟩
        · left; rw [← heq]; exact h
        · right; exact ⟨w1, ds, w2, by rw [← heq]; exact he, hw⟩
      · rw [reSplitAux_cons_some n cur hm] at H
        have hcur : ∀ c ∈ cur.reverse, pySpace c = true := fun c hc => by
          simpa using H cur.reverse (List.mem_cons_self _ _) c hc
        have H' : ∀ x ∈ reSplitAux n [] r, ∀ c ∈ x, pySpace c = true :=
          fun x hx => H x (List.mem_cons_of_mem _ hx)
        obtain ⟨ds, rest2, hl, hdne, hdig, hr⟩ := matchLabel_spec hm
        injection hl with hc hcs
        have hrlen : r.length ≤ n := by
          have := matchLabel_length hm
          simp at this hle
          omega
        have hrnil : r = [] := by
          by_contra hne
          obtain ⟨c0, r', h0⟩ := List.exists_cons_of_ne_nil hne
          have hc0 : pySpace c0 = false := by
            apply head?_dropWhile (p := pySpace) (x := rest2)
            rw [← hr, h0]; rfl
          have hc0mem : c0 ∈ [].reverse ++ r := by
            rw [List.reverse_nil, List.nil_append, h0]
            exact List.mem_cons_self _ _
          rcases ih r [] hrlen H' with hws | ⟨w1, ds', w2', he, hw1, hrest⟩
          · have htrue := hws c0 hc0mem
            rw [hc0] at htrue
            exact Bool.false_ne_true htrue
          · rw [List.reverse_nil, List.nil_append, h0] at he
            cases w1 with
            | nil =>
              simp only [List.nil_append] at he
              have h1 : c0 = '\n' := by injection he with h1 h2
              rw [h1] at hc0
              exact absurd hc0 (by simp [pySpace])
            | cons d w1' =>
              simp only [List.cons_append] at he
              have h1 : c0 = d := by injection he with h1 h2
              have htrue := hw1 d (List.mem_cons_self _ _)
              rw [← h1, hc0] at htrue
              exact Bool.false_ne_true htrue
        have hw2 : ∀ c ∈ rest2, pySpace c = true := by
          rw [hrnil] at hr
          exact List.dropWhile_eq_nil_iff.mp hr.symm
        right
        exact ⟨cur.reverse, ds, rest2,
          by rw [hc, hcs], hcur, hdne, hdig, hw2⟩

/-- When the primary strategy yields nothing, the fallback line-splitting
strategy of line 80 yields at most one line. -/
theorem fallback_le_one {t : List Char} (h : primaryClean t = []) :
    (nonWsLines t).length ≤ 1 := by
  have hall : ∀ x ∈ reSplit t, ∀ c ∈ x, pySpace c = true := by
    intro x hx
    have hclean : cleanOne x = [] := by
      have hmem : cleanOne x ∈ (reSplit t).map cleanOne := List.mem_map_of_mem _ hx
      have := List.filter_eq_nil_iff.mp h _ hmem
      simpa using this
    exact cleanOne_eq_nil_all_ws hclean
  have hstruct := reSplitAux_all_ws_struct t.length t [] (Nat.le_refl _)
    (by simpa [reSplit] using hall)
  rw [List.reverse_nil, List.nil_append] at hstruct
  rcases hstruct with hws | ⟨w1, ds, w2, heq, hw1, hdne, hdig, hw2⟩
  · rw [nonWsLines_all_ws hws]
    simp
  · rw [heq, nonWsLines_append, nonWsLines_all_ws hw1, List.nil_append]
    have hsplit : ds ++ '.' :: w2 = (ds ++ ['.']) ++ w2 := by simp
    rw [hsplit]
    apply nonWsLines_line_ws_le_one
    · rw [List.mem_append]
      rintro (h | h)
      · exact absurd (hdig '\n' h) (by decide)
      · simp at h
    · exact hw2

/-! ## Branch lemmas for `parse_generated_comments` -/

theorem parse_eq_primary {t : List Char} (h : primaryClean t ≠ []) :
    parse_generated_comments t = primaryClean t := by
  have hne : (primaryClean t).isEmpty = false := by
    simpa [List.isEmpty_iff] using h
  simp [parse_generated_comments, hne]

theorem parse_eq_fallback {t : List Char} (h1 : primaryClean t = [])
    (h2 : t ≠ []) (h3 : nonWsLines t ≠ []) :
    parse_generated_comments t = nonWsLines t := by
  simp [parse_generated_comments, h1, h2, h3, List.isEmpty_iff]

theorem parse_eq_apology {t : List Char} (h1 : primaryClean t = [])
    (h3 : nonWsLines t = []) :
    parse_generated_comments t = [apologyMsg] := by
  by_cases ht : t = []
  · subst ht; rfl
  · simp [parse_generated_comments, h1, h3, ht, List.isEmpty_iff]

theorem nonWsLines_nil : nonWsLines [] = [] := rfl

theorem parse_ne_nil (t : List Char) : parse_generated_comments t ≠ [] := by
  by_cases hp : primaryClean t = []
  · by_cases hn : nonWsLines t = []
    · rw [parse_eq_apology hp hn]; simp
    · have ht : t ≠ [] := by
        intro ht
        rw [ht, nonWsLines_nil] at hn
        exact hn rfl
      rw [parse_eq_fallback hp ht hn]; exact hn
  · rw [parse_eq_primary hp]; exact hp

/-- The central counting bound: the parser returns at most one more fragment
than the number of positions at which the split pattern matches. -/
theorem parse_length_le (t : List Char) :
    (parse_generated_comments t).length ≤ countLabel t + 1 := by
  by_cases hp : primaryClean t = []
  · by_cases hn : nonWsLines t = []
    · rw [parse_eq_apology hp hn]; simp
    · have ht : t ≠ [] := by
        intro ht
        rw [ht, nonWsLines_nil] at hn
        exact hn rfl
      rw [parse_eq_fallback hp ht hn]
      have := fallback_le_one hp
      omega
  · rw [parse_eq_primary hp]
    calc (primaryClean t).length
        ≤ ((reSplit t).map cleanOne).length := List.length_filter_le _ _
      _ = (reSplit t).length := List.length_map _ _
      _ ≤ countLabel t + 1 := reSplit_length_le t

/-! ## Behaviour of the split on a single well-formed label -/

theorem reSplitAux_no_nl :
    ∀ (f : Nat) (cur l : List Char), l.length ≤ f → '\n' ∉ l →
      reSplitAux f cur l = [cur.reverse ++ l] := by
  intro f
  induction f with
  | zero =>
    intro cur l hle hnl
    have : l = [] := List.eq_nil_of_length_eq_zero (Nat.le_zero.mp hle)
    subst this
    rw [reSplitAux_nil]
    simp
  | succ n ih =>
    intro cur l hle hnl
    cases l with
    | nil => rw [reSplitAux_nil]; simp
    | cons c cs =>
      have hc : c ≠ '\n' := fun h => hnl (h ▸ List.mem_cons_self _ _)
      rw [reSplitAux_cons_none n cur (matchLabel_cons_of_ne c cs hc),
        ih (c :: cur) cs (by simp at hle; omega)
          (fun h => hnl (List.mem_cons_of_mem _ h))]
      simp

theorem dropWhile_append_all {p : Char → Bool} {l1 l2 : List Char}
    (h : ∀ x ∈ l1, p x = true) :
    (l1 ++ l2).dropWhile p = l2.dropWhile p := by
  induction l1 with
  | nil => rfl
  | cons a l ih =>
    rw [List.cons_append, List.dropWhile_cons_of_pos (h a (List.mem_cons_self _ _))]
    exact ih (fun x hx => h x (List.mem_cons_of_mem _ hx))

/-- The split pattern matches a newline followed by a numeric label with a
trailing space, and the greedy `\s*` stops at the first non-whitespace
character of `B`. -/
theorem matchLabel_label {ds B : List Char} (hdne : ds ≠ [])
    (hdig : ∀ x ∈ ds, x.isDigit = true)
    (hB : ∀ b, B.head? = some b → pySpace b = false) :
    matchLabel ('\n' :: (ds ++ '.' :: ' ' :: B)) = some B := by
  cases ds with
  | nil => exact absurd rfl hdne
  | cons d ds' =>
    have hd : d.isDigit := hdig d (List.mem_cons_self _ _)
    have hdw : (d :: (ds' ++ '.' :: ' ' :: B)).dropWhile Char.isDigit
        = '.' :: ' ' :: B := by
      rw [List.dropWhile_cons_of_pos hd,
        dropWhile_append_all (fun x hx => hdig x (List.mem_cons_of_mem _ hx)),
        List.dropWhile_cons_of_neg (by decide)]
    have hws : (' ' :: B).dropWhile pySpace = B := by
      rw [List.dropWhile_cons_of_pos (by decide)]
      cases B with
      | nil => rfl
      | cons b B' =>
        rw [List.dropWhile_cons_of_neg]
        have := hB b rfl
        simp [this]
    rw [List.cons_append, matchLabel, if_pos ⟨rfl, hd⟩, hdw]
    simp [hws]

theorem reSplitAux_junction :
    ∀ (f : Nat) (cur A : List Char) {ds B : List Char},
      (A ++ '\n' :: (ds ++ '.' :: ' ' :: B)).length ≤ f →
      '\n' ∉ A → ds ≠ [] → (∀ x ∈ ds, x.isDigit = true) →
      '\n' ∉ B → (∀ b, B.head? = some b → pySpace b = false) →
      reSplitAux f cur (A ++ '\n' :: (ds ++ '.' :: ' ' :: B))
        = [cur.reverse ++ A, B] := by
  intro f
  induction f with
  | zero =>
    intro cur A ds B hle
    exfalso
    simp at hle
  | succ n ih =>
    intro cur A ds B hle hA hdne hdig hB hBhead
    cases A with
    | nil =>
      rw [List.nil_append,
        reSplitAux_cons_some n cur (matchLabel_label hdne hdig hBhead),
        reSplitAux_no_nl n [] B (by simp at hle; omega) hB]
      simp
    | cons a A' =>
      have ha : a ≠ '\n' := fun h => hA (h ▸ List.mem_cons_self _ _)
      rw [List.cons_append,
        reSplitAux_cons_none n cur (matchLabel_cons_of_ne a _ ha),
        ih (a :: cur) A' (by simp at hle ⊢; omega)
          (fun h => hA (List.mem_cons_of_mem _ h)) hdne hdig hB hBhead]
      simp

/-- The full split at a single embedded numeric label: everything before the
label is one fragment, everything after it is the other. -/
theorem reSplit_label {A ds B : List Char} (hA : '\n' ∉ A) (hdne : ds ≠ [])
    (hdig : ∀ x ∈ ds, x.isDigit = true) (hB : '\n' ∉ B)
    (hBhead : ∀ b, B.head? = some b → pySpace b = false) :
    reSplit (A ++ '\n' :: (ds ++ '.' :: ' ' :: B)) = [A, B] := by
  unfold reSplit
  rw [reSplitAux_junction _ [] A (Nat.le_refl _) hA hdne hdig hB hBhead]
  simp

/-! ## The claims -/

/-- C1: for every input string, including the empty string,
`parse_generated_comments` returns a non-empty list (the embedding is a
total function, so no exception can be raised); in particular, when both
parsing strategies yield nothing, the result is the single-element list
containing the fixed apology string. -/
theorem claimC1 (t : List Char) :
    parse_generated_comments t ≠ [] ∧
    (primaryClean t = [] → nonWsLines t = [] →
      parse_generated_comments t = [apologyMsg]) :=
  ⟨parse_ne_nil t, fun h1 h3 => parse_eq_apology h1 h3⟩

theorem claimC1_witness :
    parse_generated_comments [] ≠ [] ∧
    parse_generated_comments [] = [apologyMsg] :=
  ⟨(claimC1 []).1, (claimC1 []).2 (by decide) (by decide)⟩

/-- C2 (counterexample): the claim fails as stated.  The input `a\n2." hi "`
contains no occurrence of the claimed pattern `\n<digits>. ` (the period is
followed by a quote, not a space), yet the parser splits it in two, because
the code's actual separator regex `\n\d+\.\s*` requires only *optional*
whitespace after the period; moreover the returned fragment `" hi "` has
leading and trailing whitespace, because quote removal happens after the
whitespace trim. -/
theorem claimC2_cex :
    ¬ ((parse_generated_comments ("a\n2.\x22 hi \x22".data)).length
          ≤ countLabelSp ("a\n2.\x22 hi \x22".data) + 1 ∧
        ∀ c ∈ parse_generated_comments ("a\n2.\x22 hi \x22".data),
          pyStrip c = c) := by
  decide

/-- C2 (amended): for every input text, where `m` is the number of positions
at which the code's separator pattern `\n\d+\.\s*` (newline, digits, period,
*optional* whitespace) matches, the parser returns at most `m + 1` comment
fragments; when the primary split yields at least one usable fragment, the
result is exactly the list of split fragments each trimmed of whitespace,
then with a leading `"1. "` marker dropped if present, then with one layer
of wrapping double quotes removed if applicable (so whitespace that was
inside the quotes is retained), with empty results discarded. -/
theorem claimC2_amended (t : List Char) :
    (parse_generated_comments t).length ≤ countLabel t + 1 ∧
    (primaryClean t ≠ [] →
      parse_generated_comments t
        = ((reSplit t).map cleanOne).filter (fun c => !c.isEmpty)) ∧
    (primaryClean t ≠ [] →
      ∀ c ∈ parse_generated_comments t, ∃ s ∈ reSplit t, c = cleanOne s) := by
  refine ⟨parse_length_le t, fun h => parse_eq_primary h, fun h c hc => ?_⟩
  rw [parse_eq_primary h] at hc
  have hmap : c ∈ (reSplit t).map cleanOne := (List.mem_filter.mp hc).1
  obtain ⟨s, hs, heq⟩ := List.mem_map.mp hmap
  exact ⟨s, hs, heq.symm⟩

theorem claimC2_witness :
    (parse_generated_comments ("1. \x22 hi \x22".data)).length
        ≤ countLabel ("1. \x22 hi \x22".data) + 1 ∧
    parse_generated_comments ("1. \x22 hi \x22".data)
      = ((reSplit ("1. \x22 hi \x22".data)).map cleanOne).filter
          (fun c => !c.isEmpty) :=
  ⟨(claimC2_amended _).1, (claimC2_amended _).2.1 (by decide)⟩

/-- C3: quote stripping applies to a cleaned fragment exactly when its
length exceeds 2 and its first and last characters are both `"`, removing
one character from each end; `1. "Quoted comment"` parses to the unquoted
comment, while `1. ""` keeps the two-character fragment `""` unstripped and
non-discarded. -/
theorem claimC3 :
    parse_generated_comments "1. \x22Quoted comment\x22".data
        = ["Quoted comment".data] ∧
    parse_generated_comments "1. \x22\x22".data = ["\x22\x22".data] ∧
    (∀ c : List Char, 2 < c.length → c.head? = some '\x22' →
      c.getLast? = some '\x22' → stripQuotes c = (c.drop 1).dropLast) ∧
    (∀ c : List Char, stripQuotes c ≠ c →
      2 < c.length ∧ c.head? = some '\x22' ∧ c.getLast? = some '\x22' ∧
        stripQuotes c = (c.drop 1).dropLast) := by
  refine ⟨by decide, by decide, ?_, ?_⟩
  · intro c h1 h2 h3
    unfold stripQuotes
    rw [if_pos ⟨h1, h2, h3⟩]
  · intro c hne
    by_cases h : 2 < c.length ∧ c.head? = some '\x22' ∧ c.getLast? = some '\x22'
    · obtain ⟨h1, h2, h3⟩ := h
      exact ⟨h1, h2, h3, by unfold stripQuotes; rw [if_pos ⟨h1, h2, h3⟩]⟩
    · exfalso
      apply hne
      unfold stripQuotes
      rw [if_neg h]

theorem claimC3_witness :
    stripQuotes "\x22abc\x22".data = "abc".data ∧
    2 < ("\x22ab\x22".data).length := by
  constructor
  · have h := claimC3.2.2.1 "\x22abc\x22".data (by decide) (by decide) (by decide)
    rw [h]
    decide
  · exact (claimC3.2.2.2 "\x22ab\x22".data (by decide)).1

/-- C4: the parser applied to the empty string returns exactly the
one-element list containing the apology string. -/
theorem claimC4 :
    parse_generated_comments "".data
      = ["Sorry, I couldn\x27t generate a comment for that.".data] := by
  decide

/-- C5: the three-comment numbered list parses to the three comments in
order of appearance, with the leading `1. ` marker stripped from the first
fragment. -/
theorem claimC5 :
    parse_generated_comments "1. Great post!\n2. Love this!\n3. So true.".data
      = ["Great post!".data, "Love this!".data, "So true.".data] := by
  decide

/-- C6: multi-digit numeric label separators are recognized by the primary
split: `Nice\n10. Cool` parses to the two comments, and in general the
split separates the text before a `\n<digits>. ` label from the text after
it (for a label embedded in otherwise newline-free text whose continuation
starts with a non-whitespace character). -/
theorem claimC6 :
    parse_generated_comments "Nice\n10. Cool".data
        = ["Nice".data, "Cool".data] ∧
    (∀ A ds B : List Char, '\n' ∉ A → ds ≠ [] →
      (∀ x ∈ ds, x.isDigit = true) → '\n' ∉ B →
      (∀ b, B.head? = some b → pySpace b = false) →
      reSplit (A ++ '\n' :: (ds ++ '.' :: ' ' :: B)) = [A, B]) :=
  ⟨by decide, fun _ _ _ hA hdne hdig hB hBhead =>
    reSplit_label hA hdne hdig hB hBhead⟩

theorem claimC6_witness :
    reSplit ("Nice".data ++ '\n' :: ("10".data ++ '.' :: ' ' :: "Cool".data))
      = ["Nice".data, "Cool".data] :=
  claimC6.2 "Nice".data "10".data "Cool".data (by decide) (by decide)
    (by decide) (by decide)
    (by
      intro b hb
      have h : some 'C' = some b := hb
      injection h with h
      rw [← h]
      decide)

/-- C7: when the upstream client was never initialized (`client = none`),
the handler fails with HTTP 500 and the fixed configuration-error message,
for every request and independently of the upstream completion function,
which is therefore never consulted. -/
theorem claimC7 (create : List Char → Except (List Char) (List Char))
    (request : CommentRequest) :
    generate_comment none create request
      = Except.error
          ⟨500, "Groq client is not initialized. Check GROQ_API_KEY.".data⟩ :=
  rfl

/-- C8: whenever the upstream completion call fails, the handler converts
the failure (nothing propagates: the embedding is total) into HTTP 500 with
a message consisting of `"Error generating comment: "` followed by the
underlying error text. -/
theorem claimC8 (create : List Char → Except (List Char) (List Char))
    (request : CommentRequest) (e : List Char)
    (h : create request.keyword = Except.error e) :
    generate_comment (some ()) create request
      = Except.error ⟨500, "Error generating comment: ".data ++ e⟩ := by
  unfold generate_comment
  rw [h]

theorem claimC8_witness :
    generate_comment (some ()) (fun _ => Except.error "boom".data)
        ⟨"coffee".data⟩
      = Except.error ⟨500, "Error generating comment: boom".data⟩ := by
  rw [claimC8 (fun _ => Except.error "boom".data) ⟨"coffee".data⟩
    "boom".data rfl]
  rfl

/-- C9 (counterexample): a request whose keyword is the empty string *is*
processed as a normal request: with an initialized client and a successful
upstream call it produces an ordinary 200-style success response, so the
claimed non-empty-keyword validation does not exist in the code (the model
validates only presence and string type of the field). -/
theorem claimC9_cex :
    generate_comment (some ()) (fun _ => Except.ok "Nice!".data) ⟨"".data⟩
      = Except.ok ⟨"".data, ["Nice!".data]⟩ :=
  rfl

/-- C9 (amended): the keyword attribute is validated as present and of
string type only (in the embedding, by the `CommentRequest` structure
type); emptiness is not checked, and a request with an empty keyword is
processed exactly like any other request. -/
theorem claimC9_amended (create : List Char → Except (List Char) (List Char))
    (raw k : List Char) (h : create k = Except.ok raw) :
    generate_comment (some ()) create ⟨k⟩
      = Except.ok ⟨k, parse_generated_comments raw⟩ := by
  unfold generate_comment
  rw [h]

theorem claimC9_witness :
    generate_comment (some ()) (fun _ => Except.ok "ok".data) ⟨[]⟩
      = Except.ok ⟨[], parse_generated_comments "ok".data⟩ :=
  claimC9_amended (fun _ => Except.ok "ok".data) "ok".data [] rfl

/-- C10: quote stripping is not followed by a second whitespace trim:
`1. " hi "` parses to the single comment `" hi "` (with its inner spaces
kept, hence not whitespace-trimmed), and the whitespace-only inner string
of `1. " "` is kept as the comment `" "` rather than discarded. -/
theorem claimC10 :
    parse_generated_comments "1. \x22 hi \x22".data = [" hi ".data] ∧
    parse_generated_comments "1. \x22 \x22".data = [" ".data] ∧
    pyStrip " hi ".data ≠ " hi ".data := by
  decide
